import Mathlib

/-!
Verification of the Master Availability & Job-Matching Engine
(`schedule_manager.py` and the intake-time master lookup in `main.py`).

Modelling conventions (shallow embedding):
* Wall-clock times of day are `Nat` (e.g. minutes since midnight); the only
  operation the source performs on them is comparison, which is order-isomorphic.
* Calendar dates are `Nat`, counted in days from an epoch that falls on a
  Monday, so Python's `datetime.weekday()` (Monday = 0) becomes `d % 7`.
  A date is its own dictionary key (`strftime("%Y-%m-%d")` is injective on dates).
* A master's stored schedule (the JSON dict `date_key -> DaySchedule`) is an
  insertion-ordered association list with unique keys, exactly like a Python
  `dict`; `dictGet?` is `dict.get` / `in`, `dictSet` is `dict[k] = v`
  (update in place when the key exists, append otherwise).
* Timestamps (`last_schedule_confirmation`, `datetime.now()`) are `Int`
  seconds; `timedelta(hours=12)` is `43200`.
* SQL `REAL` ratings are `ℚ`; the score arithmetic of the source is exact on
  the values that arise.
* The `masters` table is a list of rows in rowid order (AUTOINCREMENT ids, so
  ascending id); a `SELECT ... WHERE` without `ORDER BY` is a filter that
  preserves that order, and Python's stable `list.sort(key=..., reverse=True)`
  is modelled by a stable descending insertion sort.
* Text columns (`city`, `specializations`) are `List Char`;
  `LIKE '%x%'` is substring containment (characters taken case-normalized,
  since SQLite's `LIKE` is ASCII-case-insensitive).
-/

/-- `TimeSlot` from `schedule_manager.py`: a daily working window.
`end_` models the Python field `end` (a Lean keyword). -/
structure TimeSlot where
  start : Nat
  end_ : Nat
deriving DecidableEq

/-- `TimeSlot.__contains__`: `self.start <= check_time <= self.end`,
inclusive at both ends. -/
def TimeSlot.containsTime (s : TimeSlot) (check_time : Nat) : Bool :=
  s.start ≤ check_time && check_time ≤ s.end_

/-- `DaySchedule` from `schedule_manager.py`: one master's availability and
booked jobs for one calendar date. -/
structure DaySchedule where
  date : Nat
  available : Bool
  time_slot : Option TimeSlot
  booked_jobs : List Nat
deriving DecidableEq

/-- `DaySchedule.is_available_at`: false if not available, false if no
time slot, otherwise membership of the time in the slot. -/
def DaySchedule.is_available_at (d : DaySchedule) (check_time : Nat) : Bool :=
  if !d.available then false
  else
    match d.time_slot with
    | none => false
    | some slot => slot.containsTime check_time

/-- A master's whole stored record (`schedule_json`): a Python dict from
date key to `DaySchedule`, as an insertion-ordered association list. -/
abbrev Schedule := List (Nat × DaySchedule)

/-- Python `dict` lookup (`schedule.get(k)` / `k in schedule`):
first binding of the key, if any. -/
def dictGet? : Schedule → Nat → Option DaySchedule
  | [], _ => none
  | (k', v) :: rest, k => if k' = k then some v else dictGet? rest k

/-- Python `dict` assignment `schedule[k] = v`: replaces the value in place
when the key is present, appends the binding otherwise. -/
def dictSet : Schedule → Nat → DaySchedule → Schedule
  | [], k, v => [(k, v)]
  | (k', v') :: rest, k, v =>
    if k' = k then (k, v) :: rest else (k', v') :: dictSet rest k v

/-- The `booked_jobs` stored for a date, `[]` when the date has no entry
(`schedule.get(date_key, DaySchedule(date, False, None, [])).booked_jobs`). -/
def bookedAt (schedule : Schedule) (date : Nat) : List Nat :=
  match dictGet? schedule date with
  | some day => day.booked_jobs
  | none => []

/-- `ScheduleManager.update_day_schedule`, written as the record-level
transformation (load → mutate → save of one master's record).  The slot is
built only when `available` and both time strings are truthy; no validation
of any kind is performed and nothing is ever raised, so the embedding is a
total function into the saved record. -/
def update_day_schedule (schedule : Schedule) (date : Nat) (available : Bool)
    (start_time : Option Nat) (end_time : Option Nat) : Schedule :=
  dictSet schedule date
    ⟨date, available,
      (if available then
        match start_time, end_time with
        | some s, some e => some (⟨s, e⟩ : TimeSlot)
        | _, _ => none
      else none),
      bookedAt schedule date⟩

/-- `ScheduleManager.is_master_available`: false when the date has no entry;
with a time, `DaySchedule.is_available_at`; without, the `available` flag. -/
def is_master_available (schedule : Schedule) (date : Nat)
    (check_time : Option Nat) : Bool :=
  match dictGet? schedule date with
  | none => false
  | some day =>
    match check_time with
    | some t => day.is_available_at t
    | none => day.available

/-- `ScheduleManager.book_master_for_job`: when the date has an entry, append
the job id to its `booked_jobs` (in-place list append, then save); otherwise
do nothing at all. -/
def book_master_for_job (schedule : Schedule) (job_id : Nat) (date : Nat) :
    Schedule :=
  match dictGet? schedule date with
  | none => schedule
  | some day =>
    dictSet schedule date
      { day with booked_jobs := day.booked_jobs ++ [job_id] }

/-- `ScheduleManager.get_master_workload`: number of booked jobs for the
date, 0 when the date has no entry. -/
def get_master_workload (schedule : Schedule) (date : Nat) : Nat :=
  match dictGet? schedule date with
  | none => 0
  | some day => day.booked_jobs.length

/-- `ScheduleManager.needs_schedule_confirmation`: true when no confirmation
timestamp is stored (missing row or NULL column), otherwise true iff
`now - last > timedelta(hours=12)` (strictly). -/
def needs_schedule_confirmation (last_confirmation : Option Int) (now : Int) :
    Bool :=
  match last_confirmation with
  | none => true
  | some last => decide (now - last > 43200)

/-- Python `datetime.weekday()` under the date encoding of this file
(days counted from a Monday): Monday = 0 … Sunday = 6. -/
def weekday (date : Nat) : Nat := date % 7

/-- One loop iteration of `ScheduleManager.create_weekly_schedule`:
the `DaySchedule` for `today + i`, available iff its weekday is in
`working_days`, with the uniform default slot when available and no slot
otherwise, and no booked jobs. -/
def weekEntry (today default_start default_end : Nat)
    (working_days : List Nat) (i : Nat) : DaySchedule :=
  ⟨today + i,
    working_days.contains (weekday (today + i)),
    (if working_days.contains (weekday (today + i)) then
      some (⟨default_start, default_end⟩ : TimeSlot)
    else none),
    []⟩

/-- The 7-entry dict built by the loop (keys in insertion order). -/
def weekRecord (today : Nat) (default_start default_end : Nat)
    (working_days : List Nat) : Schedule :=
  (List.range 7).map (fun i =>
    (today + i, weekEntry today default_start default_end working_days i))

/-- `ScheduleManager.set_master_schedule`: unconditional overwrite of the
master's entire stored record. -/
def set_master_schedule (_old new_schedule : Schedule) : Schedule :=
  new_schedule

/-- `ScheduleManager.create_weekly_schedule` at the record level: builds
`weekRecord` from scratch (`schedule = {}`) and overwrites the previously
stored record with it. -/
def create_weekly_schedule (old : Schedule) (today : Nat)
    (default_start default_end : Nat) (working_days : List Nat) : Schedule :=
  set_master_schedule old (weekRecord today default_start default_end working_days)

/-- One row of the `masters` table (the columns this core reads). -/
structure MasterRow where
  id : Nat
  rating : ℚ
  city : List Char
  specializations : List Char
  is_active : Bool
  terminal_active : Bool
deriving DecidableEq

/-- `a.isPrefixList b`: the first list is a prefix of the second. -/
def isPrefixList : List Char → List Char → Bool
  | [], _ => true
  | _ :: _, [] => false
  | a :: as, b :: bs => a == b && isPrefixList as bs

/-- SQL `blob LIKE '%tag%'`: the tag occurs as a contiguous substring of the
blob. -/
def hasSub (blob tag : List Char) : Bool :=
  match blob with
  | [] => tag.isEmpty
  | _ :: rest => isPrefixList tag blob || hasSub rest tag

/-- `ScheduleManager.get_available_masters`: SQL filter (active, same city,
specializations `LIKE '%spec%'`) in table order, then a Python loop keeping
the ids whose schedule answers `is_master_available`. -/
def get_available_masters (masters : List MasterRow) (store : Nat → Schedule)
    (specialization city : List Char) (date : Nat) (check_time : Option Nat) :
    List Nat :=
  ((masters.filter (fun m =>
      m.is_active && m.city == city && hasSub m.specializations specialization)).map
    (fun m => m.id)).filter
    (fun master_id => is_master_available (store master_id) date check_time)

/-- Python truthiness in `cursor.fetchone()[0] or 5.0`: a stored rating of
0.0 (or NULL) is replaced by the default 5.0. -/
def ratingOrDefault (rating : ℚ) : ℚ :=
  if rating = 0 then 5 else rating

/-- `SELECT rating FROM masters WHERE id = ?` followed by `or 5.0`.  The
`none` branch is unreachable from `find_best_available_master` (the id was
just read from the same table, where the Python code would have crashed on a
missing row); `5` is the arbitrary total-function value there. -/
def get_rating (masters : List MasterRow) (master_id : Nat) : ℚ :=
  match masters.find? (fun m => m.id == master_id) with
  | some m => ratingOrDefault m.rating
  | none => 5

/-- The score the source computes for one candidate:
`(rating * 10) - workload`, with `rating` the effective (0-defaulted) rating. -/
def master_score (masters : List MasterRow) (store : Nat → Schedule)
    (date : Nat) (master_id : Nat) : ℚ :=
  get_rating masters master_id * 10 - (get_master_workload (store master_id) date : ℚ)

/-- The `master_scores` list the source builds: one `(id, score)` pair per
candidate, in candidate order. -/
def master_scores (masters : List MasterRow) (store : Nat → Schedule)
    (date : Nat) (candidates : List Nat) : List (Nat × ℚ) :=
  candidates.map (fun master_id => (master_id, master_score masters store date master_id))

/-- Stable insert for a descending sort by score: the new element goes in
front of the first existing element whose score is ≤ its own, so earlier
elements win ties. -/
def insertDesc (x : Nat × ℚ) : List (Nat × ℚ) → List (Nat × ℚ)
  | [] => [x]
  | y :: ys => if y.2 ≤ x.2 then x :: y :: ys else y :: insertDesc x ys

/-- Python's stable `master_scores.sort(key=lambda x: x[1], reverse=True)`:
a stable insertion sort into descending score order. -/
def sortDesc : List (Nat × ℚ) → List (Nat × ℚ)
  | [] => []
  | x :: xs => insertDesc x (sortDesc xs)

/-- `ScheduleManager.find_best_available_master`: candidates from
`get_available_masters`; `None` when empty; otherwise score each candidate,
stable-sort descending by score, and return the first id. -/
def find_best_available_master (masters : List MasterRow)
    (store : Nat → Schedule) (specialization city : List Char) (date : Nat)
    (check_time : Option Nat) : Option Nat :=
  if (get_available_masters masters store specialization city date
      check_time).isEmpty then
    none
  else
    match sortDesc (master_scores masters store date
        (get_available_masters masters store specialization city date
          check_time)) with
    | [] => none
    | (master_id, _) :: _ => some master_id

/-- `find_available_master` from `main.py` (the second, intake-time
selection path): filter by `is_active = 1 AND terminal_active = 1 AND
city = ? AND specializations LIKE '%category%'`, `ORDER BY rating DESC
LIMIT 1`; no schedule or workload is consulted. -/
def find_available_master (masters : List MasterRow)
    (category city : List Char) : Option Nat :=
  match sortDesc ((masters.filter (fun m =>
      m.is_active && m.terminal_active && m.city == city &&
        hasSub m.specializations category)).map
          (fun m => (m.id, m.rating))) with
  | [] => none
  | (master_id, _) :: _ => some master_id

/-- The record invariant stated by the spec: the time slot is absent
whenever the entry is not available. -/
def slotInv (e : DaySchedule) : Prop :=
  e.available = false → e.time_slot = none

instance (e : DaySchedule) : Decidable (slotInv e) :=
  inferInstanceAs (Decidable (_ → _))

/-- A small concrete stored record used to instantiate the theorems below:
date 0 available 2–4 with one booked job, date 3 unavailable. -/
def exSchedule : Schedule :=
  [(0, ⟨0, true, some ⟨2, 4⟩, [7]⟩), (3, ⟨3, false, none, []⟩)]

/-- The entry of `exSchedule` at date 0. -/
def exDay : DaySchedule := ⟨0, true, some ⟨2, 4⟩, [7]⟩

/-- A master whose stored rating is 0 (Python's `or 5.0` kicks in). -/
def exM1 : MasterRow := ⟨1, 0, ['c'], ['x'], true, true⟩

/-- A master with stored rating 1. -/
def exM2 : MasterRow := ⟨2, 1, ['c'], ['x'], true, true⟩

/-- A two-row masters table in rowid (ascending id) order. -/
def exMasters : List MasterRow := [exM1, exM2]

/-- A schedule store where every master is available on date 0. -/
def exStore : Nat → Schedule := fun _ => [(0, ⟨0, true, none, []⟩)]

/-- An active master whose terminal is not active. -/
def exM3 : MasterRow := ⟨1, 5, ['c'], ['x'], true, false⟩

/-- An active master with an active terminal. -/
def exM4 : MasterRow := ⟨1, 5, ['c'], ['x'], true, true⟩

/-! ## Dictionary lemmas -/

theorem dictGet?_dictSet_self (s : Schedule) (k : Nat) (v : DaySchedule) :
    dictGet? (dictSet s k v) k = some v := by
  induction s with
  | nil => simp [dictSet, dictGet?]
  | cons p rest ih =>
    obtain ⟨k', v'⟩ := p
    by_cases h : k' = k
    · simp [dictSet, h, dictGet?]
    · simp [dictSet, h, dictGet?, ih]

theorem dictGet?_dictSet_ne (s : Schedule) (k k' : Nat) (v : DaySchedule)
    (h : k' ≠ k) : dictGet? (dictSet s k v) k' = dictGet? s k' := by
  induction s with
  | nil => simp [dictSet, dictGet?, Ne.symm h]
  | cons p rest ih =>
    obtain ⟨k'', v''⟩ := p
    by_cases hk : k'' = k
    · subst hk
      simp [dictSet, dictGet?, Ne.symm h]
    · simp only [dictSet, if_neg hk, dictGet?, ih]

theorem mem_dictSet : ∀ (s : Schedule) (k : Nat) (v : DaySchedule)
    (p : Nat × DaySchedule), p ∈ dictSet s k v → p = (k, v) ∨ p ∈ s
  | [], k, v, p, hp => by
    simp [dictSet] at hp
    exact Or.inl hp
  | (k', v') :: rest, k, v, p, hp => by
    by_cases h : k' = k
    · subst h
      simp only [dictSet, if_pos rfl] at hp
      rcases List.mem_cons.mp hp with h1 | h2
      · exact Or.inl h1
      · exact Or.inr (List.mem_cons_of_mem _ h2)
    · simp only [dictSet, if_neg h] at hp
      rcases List.mem_cons.mp hp with h1 | h2
      · exact Or.inr (h1 ▸ List.mem_cons_self _ _)
      · rcases mem_dictSet rest k v p h2 with h3 | h4
        · exact Or.inl h3
        · exact Or.inr (List.mem_cons_of_mem _ h4)

theorem dictGet?_mem : ∀ (s : Schedule) (k : Nat) (v : DaySchedule),
    dictGet? s k = some v → (k, v) ∈ s
  | [], k, v, h => by simp [dictGet?] at h
  | (k', v') :: rest, k, v, h => by
    by_cases hk : k' = k
    · subst hk
      simp [dictGet?] at h
      subst h
      exact List.mem_cons_self _ _
    · simp only [dictGet?, if_neg hk] at h
      exact List.mem_cons_of_mem _ (dictGet?_mem rest k v h)

/-- The entry `update_day_schedule` stores at the updated date. -/
theorem dictGet?_update_self (s : Schedule) (date : Nat) (available : Bool)
    (st et : Option Nat) :
    dictGet? (update_day_schedule s date available st et) date =
      some ⟨date, available,
        (if available then
          match st, et with
          | some a, some b => some (⟨a, b⟩ : TimeSlot)
          | _, _ => none
        else none),
        bookedAt s date⟩ :=
  dictGet?_dictSet_self s date _

/-! ## Claims -/

/-- C2: `book_master_for_job` on a date with no entry leaves the record
unchanged and the workload for that date stays 0; on a date with an entry it
appends the job id at the tail of that entry's `booked_jobs`,
unconditionally (no duplicate check, no capacity limit), so the workload for
that date grows by exactly 1. -/
theorem C2_book_spec (s : Schedule) (job_id date : Nat) :
    (dictGet? s date = none →
      book_master_for_job s job_id date = s ∧
        get_master_workload (book_master_for_job s job_id date) date = 0) ∧
    (∀ day, dictGet? s date = some day →
      dictGet? (book_master_for_job s job_id date) date =
          some { day with booked_jobs := day.booked_jobs ++ [job_id] } ∧
        get_master_workload (book_master_for_job s job_id date) date =
          get_master_workload s date + 1) := by
  constructor
  · intro h
    constructor
    · simp [book_master_for_job, h]
    · simp [book_master_for_job, h, get_master_workload]
  · intro day hday
    have hl : dictGet? (book_master_for_job s job_id date) date =
        some { day with booked_jobs := day.booked_jobs ++ [job_id] } := by
      simp [book_master_for_job, hday, dictGet?_dictSet_self]
    refine ⟨hl, ?_⟩
    simp [get_master_workload, hl, hday]

/-- Witness for C2 at a concrete record. -/
theorem C2_book_spec_witness :
    dictGet? (book_master_for_job exSchedule 9 0) 0 =
        some { exDay with booked_jobs := exDay.booked_jobs ++ [9] } ∧
      get_master_workload (book_master_for_job exSchedule 9 0) 0 =
        get_master_workload exSchedule 0 + 1 :=
  (C2_book_spec exSchedule 9 0).2 exDay (by decide)

/-- C5: `is_master_available` is false when the date has no entry; with a
time `t` it is true iff the entry is available and `t` lies in the entry's
time slot (inclusive at both ends); without a time it is the entry's
`available` flag. -/
theorem C5_isAvailable_spec (s : Schedule) (date : Nat) :
    (dictGet? s date = none →
      ∀ t : Option Nat, is_master_available s date t = false) ∧
    (∀ day, dictGet? s date = some day →
      is_master_available s date none = day.available ∧
        ∀ t : Nat,
          (is_master_available s date (some t) = true ↔
            day.available = true ∧
              ∃ slot, day.time_slot = some slot ∧
                slot.start ≤ t ∧ t ≤ slot.end_)) := by
  constructor
  · intro h t
    cases t <;> simp [is_master_available, h]
  · intro day hday
    constructor
    · simp [is_master_available, hday]
    · intro t
      cases hav : day.available <;>
        cases hsl : day.time_slot <;>
          simp [is_master_available, hday, DaySchedule.is_available_at,
            TimeSlot.containsTime, hav, hsl]

/-- Witness for C5 at a concrete record. -/
theorem C5_isAvailable_spec_witness :
    is_master_available exSchedule 0 none = exDay.available :=
  ((C5_isAvailable_spec exSchedule 0).2 exDay (by decide)).1

/-- C6: `update_day_schedule` replaces only the entry at the given date
(every other date's entry is unchanged); the new entry keeps the previously
stored `booked_jobs` when an entry existed (and gets `[]` otherwise, which
is `bookedAt`), so repeated calls never reset `booked_jobs`. -/
theorem C6_setDay_frame (s : Schedule) (date : Nat) (available : Bool)
    (st et : Option Nat) :
    (∀ d', d' ≠ date →
      dictGet? (update_day_schedule s date available st et) d' =
        dictGet? s d') ∧
    (∃ e, dictGet? (update_day_schedule s date available st et) date = some e ∧
      e.booked_jobs = bookedAt s date ∧ e.available = available ∧
        e.date = date) ∧
    (∀ av' st' et',
      bookedAt (update_day_schedule
        (update_day_schedule s date available st et) date av' st' et') date =
      bookedAt s date) := by
  refine ⟨?_, ?_, ?_⟩
  · intro d' hd'
    exact dictGet?_dictSet_ne s date d' _ hd'
  · exact ⟨_, dictGet?_update_self s date available st et, rfl, rfl, rfl⟩
  · intro av' st' et'
    simp [bookedAt, dictGet?_update_self]

/-- Witness for C6 at a concrete record. -/
theorem C6_setDay_frame_witness :
    dictGet? (update_day_schedule exSchedule 0 false none none) 3 =
      dictGet? exSchedule 3 :=
  (C6_setDay_frame exSchedule 0 false none none).1 3 (by decide)

/-- C9: `needs_schedule_confirmation` is true when no confirmation is
stored, true iff strictly more than 12 hours (43200 s) have passed
otherwise, and in particular false at exactly 12 hours. -/
theorem C9_needsConfirmation_spec (last now : Int) :
    needs_schedule_confirmation none now = true ∧
    (needs_schedule_confirmation (some last) now = true ↔
      now - last > 43200) ∧
    needs_schedule_confirmation (some last) (last + 43200) = false := by
  refine ⟨rfl, ?_, ?_⟩
  · simp [needs_schedule_confirmation]
  · simp [needs_schedule_confirmation]

/-- C10: calling `update_day_schedule` with `available = true` but a missing
start or end time raises nothing (the embedding is total) and stores an
entry that is available with no time slot; afterwards `is_master_available`
without a time is true for that date, and with any time it is false. -/
theorem C10_setDay_available_no_slot (s : Schedule) (date : Nat)
    (st et : Option Nat) (h : st = none ∨ et = none) :
    dictGet? (update_day_schedule s date true st et) date =
        some ⟨date, true, none, bookedAt s date⟩ ∧
      is_master_available (update_day_schedule s date true st et) date none =
        true ∧
      ∀ t, is_master_available (update_day_schedule s date true st et) date
        (some t) = false := by
  have hl : dictGet? (update_day_schedule s date true st et) date =
      some ⟨date, true, none, bookedAt s date⟩ := by
    rcases h with h | h
    · subst h
      cases et <;> exact dictGet?_dictSet_self s date _
    · subst h
      cases st <;> exact dictGet?_dictSet_self s date _
  refine ⟨hl, ?_, ?_⟩
  · simp [is_master_available, hl]
  · intro t
    simp [is_master_available, hl, DaySchedule.is_available_at]

/-- Witness for C10 at a concrete record. -/
theorem C10_setDay_available_no_slot_witness :
    is_master_available (update_day_schedule exSchedule 0 true none (some 5))
      0 none = true :=
  (C10_setDay_available_no_slot exSchedule 0 none (some 5) (Or.inl rfl)).2.1

/-- C4 counterexample: `update_day_schedule` with `available = true` and an
absent slot, and with `start > end`, does not fail — it changes the stored
record (the claim says the record stays unchanged on such calls) and stores
the unvalidated entry. -/
theorem C4_counterexample :
    update_day_schedule [] 0 true none none = [(0, ⟨0, true, none, []⟩)] ∧
      update_day_schedule [] 0 true none none ≠ [] ∧
      dictGet? (update_day_schedule [] 0 true (some 10) (some 5)) 0 =
        some ⟨0, true, some ⟨10, 5⟩, []⟩ := by
  decide

/-- C4 amended: `update_day_schedule` performs no slot validation and never
fails: with `available = true` and a missing start or end it saves the entry
with no time slot, and with both endpoints given it saves the slot as-is
(even when start > end); in every case the stored record is updated. -/
theorem C4_amended_no_validation (s : Schedule) (date : Nat)
    (st et : Option Nat) :
    ((st = none ∨ et = none) →
      update_day_schedule s date true st et =
        dictSet s date ⟨date, true, none, bookedAt s date⟩) ∧
    (∀ a b, st = some a → et = some b →
      update_day_schedule s date true st et =
        dictSet s date ⟨date, true, some ⟨a, b⟩, bookedAt s date⟩) := by
  constructor
  · rintro (rfl | rfl)
    · cases et <;> rfl
    · cases st <;> rfl
  · rintro a b rfl rfl
    rfl

/-- Witness for the amended C4 at a concrete record and reversed slot. -/
theorem C4_amended_no_validation_witness :
    update_day_schedule exSchedule 0 true (some 10) (some 5) =
      dictSet exSchedule 0 ⟨0, true, some ⟨10, 5⟩, bookedAt exSchedule 0⟩ :=
  (C4_amended_no_validation exSchedule 0 (some 10) (some 5)).2 10 5 rfl rfl

/-- C7: every entry written by `update_day_schedule`,
`book_master_for_job` or `create_weekly_schedule` keeps the invariant that
the time slot is absent whenever `available` is false (for records whose
existing entries already satisfy it); in particular, after an update with
`available = false` the stored entry has no time slot (even if one was
present before) and `is_master_available` answers false for that date. -/
theorem C7_slot_invariant (s : Schedule) (hs : ∀ p ∈ s, slotInv p.2) :
    (∀ date available st et,
      ∀ p ∈ update_day_schedule s date available st et, slotInv p.2) ∧
    (∀ job_id date, ∀ p ∈ book_master_for_job s job_id date, slotInv p.2) ∧
    (∀ today ds de wd,
      ∀ p ∈ create_weekly_schedule s today ds de wd, slotInv p.2) ∧
    (∀ date st et,
      is_master_available (update_day_schedule s date false st et) date none =
        false ∧
      dictGet? (update_day_schedule s date false st et) date =
        some ⟨date, false, none, bookedAt s date⟩) := by
  refine ⟨?_, ?_, ?_, ?_⟩
  · intro date available st et p hp
    rcases mem_dictSet _ _ _ _ hp with rfl | hmem
    · intro hav
      subst hav
      rfl
    · exact hs p hmem
  · intro job_id date p hp
    cases hd : dictGet? s date with
    | none =>
      simp only [book_master_for_job, hd] at hp
      exact hs p hp
    | some day =>
      simp only [book_master_for_job, hd] at hp
      rcases mem_dictSet _ _ _ _ hp with rfl | hmem
      · exact fun hav => (hs (date, day) (dictGet?_mem s date day hd)) hav
      · exact hs p hmem
  · intro today ds de wd p hp
    simp only [create_weekly_schedule, set_master_schedule, weekRecord,
      List.mem_map, List.mem_range] at hp
    obtain ⟨i, _, rfl⟩ := hp
    intro hav
    have hnm : weekday (today + i) ∉ wd := by simpa [weekEntry] using hav
    simp [weekEntry, hnm]
  · intro date st et
    have hl : dictGet? (update_day_schedule s date false st et) date =
        some ⟨date, false, none, bookedAt s date⟩ :=
      dictGet?_dictSet_self s date _
    exact ⟨by simp [is_master_available, hl], hl⟩

/-- Witness for C7 at a concrete record. -/
theorem C7_slot_invariant_witness :
    dictGet? (update_day_schedule exSchedule 0 false none none) 0 =
      some ⟨0, false, none, bookedAt exSchedule 0⟩ :=
  ((C7_slot_invariant exSchedule (by decide)).2.2.2 0 none none).2

/-- Lookup distributes over appended association lists. -/
theorem dictGet?_append (l1 l2 : Schedule) (k : Nat) :
    dictGet? (l1 ++ l2) k =
      match dictGet? l1 k with
      | some v => some v
      | none => dictGet? l2 k := by
  induction l1 with
  | nil => simp [dictGet?]
  | cons p rest ih =>
    obtain ⟨k', v'⟩ := p
    by_cases h : k' = k <;> simp [dictGet?, h, ih]

/-- Lookup in a block of consecutive keys `today, …, today + n - 1`. -/
theorem dictGet?_range_map (today : Nat) (entry : Nat → DaySchedule) :
    ∀ (n k : Nat),
      dictGet? ((List.range n).map (fun i => (today + i, entry i))) k =
        if today ≤ k ∧ k < today + n then some (entry (k - today)) else none := by
  intro n
  induction n with
  | zero =>
    intro k
    simp only [List.range_zero, List.map_nil, dictGet?]
    rw [if_neg (by omega)]
  | succ n ih =>
    intro k
    rw [List.range_succ, List.map_append, dictGet?_append, ih]
    by_cases h1 : today ≤ k ∧ k < today + n
    · rw [if_pos h1, if_pos (by omega)]
    · rw [if_neg h1]
      by_cases h2 : k = today + n
      · subst h2
        simp [dictGet?]
      · simp only [List.map_cons, List.map_nil, dictGet?]
        rw [if_neg (by omega), if_neg (by omega)]

/-- C3: `create_weekly_schedule` ignores the previously stored record and
replaces it with exactly 7 consecutive entries starting today; a day is
available with the uniform slot iff its weekday is in `working_days`, and
every date outside the 7-day window maps to nothing. -/
theorem C3_weekly_spec (old : Schedule) (today ds de : Nat) (wd : List Nat) :
    create_weekly_schedule old today ds de wd =
        create_weekly_schedule [] today ds de wd ∧
      (create_weekly_schedule old today ds de wd).length = 7 ∧
      (∀ i, i < 7 →
        dictGet? (create_weekly_schedule old today ds de wd) (today + i) =
          some ⟨today + i, wd.contains (weekday (today + i)),
            (if wd.contains (weekday (today + i)) then some ⟨ds, de⟩
             else none),
            []⟩) ∧
      (∀ d, d < today ∨ today + 7 ≤ d →
        dictGet? (create_weekly_schedule old today ds de wd) d = none) := by
  refine ⟨rfl,
    by simp [create_weekly_schedule, set_master_schedule, weekRecord], ?_, ?_⟩
  · intro i hi
    simp only [create_weekly_schedule, set_master_schedule, weekRecord]
    rw [dictGet?_range_map today (weekEntry today ds de wd), if_pos (by omega)]
    have h0 : today + i - today = i := by omega
    rw [h0]
    simp [weekEntry]
  · intro d hd
    simp only [create_weekly_schedule, set_master_schedule, weekRecord]
    rw [dictGet?_range_map today (weekEntry today ds de wd), if_neg (by omega)]

/-- Witness for C3: a date outside the window is gone. -/
theorem C3_weekly_spec_witness :
    dictGet? (create_weekly_schedule exSchedule 0 9 18 [0, 1, 2, 3, 4]) 8 =
      none :=
  (C3_weekly_spec exSchedule 0 9 18 [0, 1, 2, 3, 4]).2.2.2 8
    (Or.inr (by decide))

/-- Head of the stable descending sort of a scored candidate list whose ids
are strictly ascending: some candidate with maximal score, and among equal
maximal scores the one with the smallest id (the stable sort keeps the
earliest, which under ascending ids is the smallest). -/
theorem sortDesc_head_spec (f : Nat → ℚ) :
    ∀ (l : List Nat), l ≠ [] → l.Pairwise (· < ·) →
      ∃ b, b ∈ l ∧
        (sortDesc (l.map (fun m => (m, f m)))).head? = some (b, f b) ∧
        (∀ a ∈ l, f a ≤ f b) ∧
        (∀ a ∈ l, f a = f b → b ≤ a) := by
  intro l
  induction l with
  | nil => intro h; exact absurd rfl h
  | cons x xs ih =>
    intro _ hpw
    rw [List.pairwise_cons] at hpw
    obtain ⟨hx, hxs⟩ := hpw
    by_cases hxe : xs = []
    · subst hxe
      refine ⟨x, List.mem_cons_self _ _, rfl, ?_, ?_⟩
      · intro a ha
        rw [List.mem_singleton] at ha
        exact ha ▸ le_refl _
      · intro a ha _
        rw [List.mem_singleton] at ha
        exact ha ▸ le_refl _
    · obtain ⟨b, hbmem, hbhead, hbmax, hbtie⟩ := ih hxe hxs
      cases heq : sortDesc (xs.map (fun m => (m, f m))) with
      | nil => rw [heq] at hbhead; exact absurd hbhead (by simp)
      | cons p t =>
        rw [heq] at hbhead
        simp only [List.head?_cons, Option.some.injEq] at hbhead
        subst hbhead
        by_cases hc : f b ≤ f x
        · refine ⟨x, List.mem_cons_self _ _, ?_, ?_, ?_⟩
          · simp only [List.map_cons, sortDesc]
            rw [heq]
            simp only [insertDesc]
            rw [if_pos hc]
            rfl
          · intro a ha
            rcases List.mem_cons.mp ha with rfl | ha
            · exact le_refl _
            · exact le_trans (hbmax a ha) hc
          · intro a ha _
            rcases List.mem_cons.mp ha with rfl | ha
            · exact le_refl _
            · exact le_of_lt (hx a ha)
        · have hlt : f x < f b := lt_of_not_le hc
          refine ⟨b, List.mem_cons_of_mem _ hbmem, ?_, ?_, ?_⟩
          · simp only [List.map_cons, sortDesc]
            rw [heq]
            simp only [insertDesc]
            rw [if_neg hc]
            rfl
          · intro a ha
            rcases List.mem_cons.mp ha with rfl | ha
            · exact le_of_lt hlt
            · exact hbmax a ha
          · intro a ha hfa
            rcases List.mem_cons.mp ha with rfl | ha
            · exact absurd hfa (ne_of_lt hlt)
            · exact hbtie a ha hfa

/-- C1 counterexample: with a candidate whose stored rating is 0, the code
replaces it by the default 5.0 (`rating or 5.0`), so the returned master
(id 1) is not the candidate maximizing the claimed score
`rating*10 − workload` — candidate 2's claimed score is strictly larger. -/
theorem C1_counterexample :
    find_best_available_master exMasters exStore ['x'] ['c'] 0 none =
        some 1 ∧
      1 ∈ get_available_masters exMasters exStore ['x'] ['c'] 0 none ∧
      2 ∈ get_available_masters exMasters exStore ['x'] ['c'] 0 none ∧
      exM1.rating * 10 - (get_master_workload (exStore 1) 0 : ℚ) <
        exM2.rating * 10 - (get_master_workload (exStore 2) 0 : ℚ) := by
  have h1 : get_available_masters exMasters exStore ['x'] ['c'] 0 none =
      [1, 2] := by decide
  have hw : ∀ m : Nat, get_master_workload (exStore m) 0 = 0 := fun m => rfl
  have hr1 : get_rating exMasters 1 = 5 := by decide
  have hr2 : get_rating exMasters 2 = 1 := by decide
  have h2 : master_score exMasters exStore 0 1 = 50 := by
    simp only [master_score, hr1, hw]
    norm_num
  have h3 : master_score exMasters exStore 0 2 = 10 := by
    simp only [master_score, hr2, hw]
    norm_num
  have h4 : find_best_available_master exMasters exStore ['x'] ['c'] 0 none =
      some 1 := by
    simp only [find_best_available_master, h1]
    rw [if_neg (by decide)]
    have hm : master_scores exMasters exStore 0 [1, 2] =
        [(1, (50 : ℚ)), (2, 10)] := by
      simp only [master_scores, List.map_cons, List.map_nil, h2, h3]
    rw [hm]
    have hs : sortDesc [(1, (50 : ℚ)), (2, 10)] = [(1, 50), (2, 10)] := by
      simp only [sortDesc, insertDesc]
      rw [if_pos (by norm_num)]
    rw [hs]
  refine ⟨h4, by decide, by decide, ?_⟩
  norm_num [exM1, exM2, hw]

/-- C1 amended: over a masters table in ascending-id order,
`find_best_available_master` returns `none` exactly when the candidate list
is empty, and otherwise returns the candidate maximizing the score the code
computes — `r*10 − workload(id, date)` where `r` is the stored rating with
0 (or missing) replaced by the default 5.0 — with ties broken by the
smallest (ascending) master id. -/
theorem C1_amended_selectBest (masters : List MasterRow)
    (store : Nat → Schedule) (specialization city : List Char) (date : Nat)
    (check_time : Option Nat)
    (hids : masters.Pairwise (fun a b => a.id < b.id)) :
    (get_available_masters masters store specialization city date check_time =
        [] →
      find_best_available_master masters store specialization city date
        check_time = none) ∧
    (get_available_masters masters store specialization city date check_time ≠
        [] →
      ∃ b, b ∈ get_available_masters masters store specialization city date
          check_time ∧
        find_best_available_master masters store specialization city date
          check_time = some b ∧
        (∀ a ∈ get_available_masters masters store specialization city date
            check_time,
          master_score masters store date a ≤ master_score masters store date b) ∧
        (∀ a ∈ get_available_masters masters store specialization city date
            check_time,
          master_score masters store date a = master_score masters store date b →
            b ≤ a)) := by
  constructor
  · intro h
    simp [find_best_available_master, h]
  · intro h
    have hpw : (get_available_masters masters store specialization city date
        check_time).Pairwise (· < ·) := by
      unfold get_available_masters
      refine List.Pairwise.filter _ ?_
      rw [List.pairwise_map]
      exact List.Pairwise.filter _ hids
    obtain ⟨b, hbmem, hbhead, hbmax, hbtie⟩ :=
      sortDesc_head_spec (master_score masters store date) _ h hpw
    refine ⟨b, hbmem, ?_, hbmax, hbtie⟩
    have hne : (get_available_masters masters store specialization city date
        check_time).isEmpty = false := by
      cases hcands : get_available_masters masters store specialization city
          date check_time
      · exact absurd hcands h
      · rfl
    have hms : master_scores masters store date
        (get_available_masters masters store specialization city date
          check_time) =
        (get_available_masters masters store specialization city date
          check_time).map
          (fun m => (m, master_score masters store date m)) := rfl
    unfold find_best_available_master
    rw [hne]
    simp only [Bool.false_eq_true, if_false]
    rw [hms]
    cases hsort : sortDesc ((get_available_masters masters store specialization
        city date check_time).map
          (fun m => (m, master_score masters store date m))) with
    | nil =>
      rw [hsort] at hbhead
      exact absurd hbhead (by simp)
    | cons p t =>
      rw [hsort] at hbhead
      simp only [List.head?_cons, Option.some.injEq] at hbhead
      subst hbhead
      rfl

/-- Witness for the amended C1 at a concrete table and store. -/
theorem C1_amended_selectBest_witness :
    get_available_masters exMasters exStore ['x'] ['c'] 0 none ≠ [] ∧
    ∃ b, b ∈ get_available_masters exMasters exStore ['x'] ['c'] 0 none ∧
      find_best_available_master exMasters exStore ['x'] ['c'] 0 none =
        some b ∧
      (∀ a ∈ get_available_masters exMasters exStore ['x'] ['c'] 0 none,
        master_score exMasters exStore 0 a ≤ master_score exMasters exStore 0 b) ∧
      (∀ a ∈ get_available_masters exMasters exStore ['x'] ['c'] 0 none,
        master_score exMasters exStore 0 a = master_score exMasters exStore 0 b →
          b ≤ a) :=
  ⟨by decide,
    (C1_amended_selectBest exMasters exStore ['x'] ['c'] 0 none
      (by
        simp only [exMasters, List.pairwise_cons, List.mem_singleton]
        refine ⟨?_, ?_, List.Pairwise.nil⟩
        · intro a ha
          subst ha
          decide
        · intro a ha
          simp at ha)).2 (by decide)⟩

/-- Head of the stable descending sort of `ORDER BY rating DESC`: some row
with maximal rating. -/
theorem sortDesc_head_max (g : MasterRow → Nat × ℚ) :
    ∀ (l : List MasterRow), l ≠ [] →
      ∃ b, b ∈ l ∧ (sortDesc (l.map g)).head? = some (g b) ∧
        ∀ a ∈ l, (g a).2 ≤ (g b).2 := by
  intro l
  induction l with
  | nil => intro h; exact absurd rfl h
  | cons x xs ih =>
    intro _
    by_cases hxe : xs = []
    · subst hxe
      refine ⟨x, List.mem_cons_self _ _, rfl, ?_⟩
      intro a ha
      rw [List.mem_singleton] at ha
      exact ha ▸ le_refl _
    · obtain ⟨b, hbmem, hbhead, hbmax⟩ := ih hxe
      cases heq : sortDesc (xs.map g) with
      | nil => rw [heq] at hbhead; exact absurd hbhead (by simp)
      | cons p t =>
        rw [heq] at hbhead
        simp only [List.head?_cons, Option.some.injEq] at hbhead
        subst hbhead
        by_cases hc : (g b).2 ≤ (g x).2
        · refine ⟨x, List.mem_cons_self _ _, ?_, ?_⟩
          · simp only [List.map_cons, sortDesc]
            rw [heq]
            simp only [insertDesc]
            rw [if_pos hc]
            rfl
          · intro a ha
            rcases List.mem_cons.mp ha with rfl | ha
            · exact le_refl _
            · exact le_trans (hbmax a ha) hc
        · refine ⟨b, List.mem_cons_of_mem _ hbmem, ?_, ?_⟩
          · simp only [List.map_cons, sortDesc]
            rw [heq]
            simp only [insertDesc]
            rw [if_neg hc]
            rfl
          · intro a ha
            rcases List.mem_cons.mp ha with rfl | ha
            · exact le_of_lt (lt_of_not_le hc)
            · exact hbmax a ha

/-- C8 counterexample: an active master matching city and specialization
whose terminal is not active is skipped by `find_available_master` (the SQL
filter also requires `terminal_active = 1`), so the claimed result (the
highest-rated active matching master) is not returned. -/
theorem C8_counterexample :
    find_available_master [exM3] ['x'] ['c'] = none ∧
      exM3.is_active = true ∧ exM3.city = ['c'] ∧
      hasSub exM3.specializations ['x'] = true := by
  decide

/-- C8 amended: `find_available_master` ignores schedules and workload and
returns a highest-rated master among the active masters *with an active
terminal* in the city whose specializations blob contains the category tag,
or none when no such master exists. -/
theorem C8_amended_intake_lookup (masters : List MasterRow)
    (category city : List Char) :
    (masters.filter (fun m =>
        m.is_active && m.terminal_active && m.city == city &&
          hasSub m.specializations category) = [] →
      find_available_master masters category city = none) ∧
    (masters.filter (fun m =>
        m.is_active && m.terminal_active && m.city == city &&
          hasSub m.specializations category) ≠ [] →
      ∃ b, b ∈ masters.filter (fun m =>
          m.is_active && m.terminal_active && m.city == city &&
            hasSub m.specializations category) ∧
        find_available_master masters category city = some b.id ∧
        ∀ a ∈ masters.filter (fun m =>
            m.is_active && m.terminal_active && m.city == city &&
              hasSub m.specializations category),
          a.rating ≤ b.rating) := by
  constructor
  · intro h
    simp [find_available_master, h, sortDesc]
  · intro h
    obtain ⟨b, hbmem, hbhead, hbmax⟩ :=
      sortDesc_head_max (fun m => (m.id, m.rating)) _ h
    refine ⟨b, hbmem, ?_, hbmax⟩
    unfold find_available_master
    cases hsort : sortDesc ((masters.filter (fun m =>
        m.is_active && m.terminal_active && m.city == city &&
          hasSub m.specializations category)).map
            (fun m => (m.id, m.rating))) with
    | nil =>
      rw [hsort] at hbhead
      exact absurd hbhead (by simp)
    | cons p t =>
      rw [hsort] at hbhead
      simp only [List.head?_cons, Option.some.injEq] at hbhead
      subst hbhead
      rfl

/-- Witness for the amended C8 at a concrete table. -/
theorem C8_amended_intake_lookup_witness :
    [exM4].filter (fun m =>
        m.is_active && m.terminal_active && m.city == ['c'] &&
          hasSub m.specializations ['x']) ≠ [] ∧
    ∃ b, b ∈ [exM4].filter (fun m =>
        m.is_active && m.terminal_active && m.city == ['c'] &&
          hasSub m.specializations ['x']) ∧
      find_available_master [exM4] ['x'] ['c'] = some b.id ∧
      ∀ a ∈ [exM4].filter (fun m =>
          m.is_active && m.terminal_active && m.city == ['c'] &&
            hasSub m.specializations ['x']),
        a.rating ≤ b.rating :=
  ⟨by decide, (C8_amended_intake_lookup [exM4] ['x'] ['c']).2 (by decide)⟩
